import Mathlib

/-!
Verification development for the Content Bundle subsystem of gmpublisher
(`src-tauri/src/bundles.rs`).

The Rust code is shallowly embedded:

* `PublishedFileId` (a `u64` newtype) is a `Nat`; where 64-bit overflow
  matters (`str::parse::<u64>`) the bound `2^64` is checked explicitly.
* `chrono::DateTime<Utc>` instants are `Nat`s.  The third-party RFC 2822
  rendering/parsing pair from chrono (not part of this repository) is
  abstracted as an injective decimal rendering together with its inverse;
  no claim depends on the concrete RFC 2822 text.
* The Steam collection oracle (`steam!().fetch_collection_items`) is a
  parameter `orc : Nat → Option (List Nat)`.
* The regular expression `RE_BUNDLE_DATA` is multi-line and anchored with
  `^`, and no element of the pattern can match `\n`, so every match lies
  within a single line and each line yields at most one match (a further
  match would have to begin at the next line start).  The parser is
  therefore embedded as a per-line matcher `lineMatch` applied to the
  lines of the input, using backtracking (leftmost-first, lazy/greedy,
  possessive, backreference) semantics for the pattern
  `^[ \t]*(?:(?:("|'|\[(=*)\[)(\d+)(?:\1|\]\2\]))|--#[ \t]*+(.+?)(?:[ \t]+(.+)|$))`.
* Mutable state (`BUNDLES`, the bundle directory) is passed explicitly;
  disk writes may be told to fail through a `Bool` parameter, modelling
  `File::create`/`bincode::serialize_into` errors.
* Rust's `slice::binary_search` is embedded as `rbsAux` (the
  left/right/mid loop of the standard library), with fuel that provably
  suffices, so that it computes by kernel reduction.
-/

/-- A character is one of the whitespace characters `[ \t]` of the regex. -/
def isWsC (c : Char) : Bool := c == ' ' || c == '\t'

/-- Decimal digit character, `48 + d` as a code point. -/
def digitChar (d : Nat) : Char := Char.ofNat (48 + d)

/-- Fuel-driven decimal rendering of a natural number (mirrors
`u64::to_string`); the fuel `n + 1` always suffices. -/
def natDigitsAux : Nat → Nat → List Char
  | 0, _ => []
  | fuel + 1, n => if n < 10 then [digitChar n] else natDigitsAux fuel (n / 10) ++ [digitChar (n % 10)]

/-- Decimal digits of `n`, most significant first (mirrors `u64::to_string`). -/
def natDigits (n : Nat) : List Char := natDigitsAux (n + 1) n

/-- Decimal rendering as a `String`. -/
def natStr (n : Nat) : String := ⟨natDigits n⟩

/-- Value of a decimal digit string (fold, most significant first). -/
def decVal (l : List Char) : Nat := l.foldl (fun a c => 10 * a + (c.toNat - 48)) 0

/-- Rust `str::parse::<u64>`: an optional leading `+`, then one or more
ASCII digits, value below `2^64`; anything else is an error. -/
def parseU64 (s : List Char) : Option Nat :=
  let t := match s with
    | c :: rest => if c = '+' then rest else s
    | [] => s
  if t.isEmpty then none
  else if t.all Char.isDigit then
    if decVal t < 18446744073709551616 then some (decVal t) else none
  else none

/-- Models chrono's `DateTime::to_rfc2822` (third-party, not in this
repository) as an abstract injective rendering of the instant.  No claim
depends on the concrete RFC 2822 text, only on the line structure of the
`--# updated` directive, which this preserves. -/
def rfc2822Render (t : Nat) : String := natStr t

/-- Models chrono's `DateTime::parse_from_rfc2822` as the inverse of
`rfc2822Render`: parsing a rendered instant yields it back, anything the
model cannot read is a parse error (in the code a parse error leaves
`updated` at its default). -/
def parseRfc2822 (s : List Char) : Option Nat := parseU64 s

/-- One match of `RE_BUNDLE_DATA`: group 3 (an item token carrying the
captured digit run) or group 4/5 (a directive key with optional value). -/
inductive Token where
  | item : List Char → Token
  | directive : List Char → Option (List Char) → Token
deriving DecidableEq, Repr

/-- Whether a token is an item token (group 3 of the regex). -/
def Token.isItem : Token → Bool
  | .item _ => true
  | .directive _ _ => false

/-- The quoted-numeric branch after the opener has been consumed:
`(\d+)(?:\1|\]\2\])` — a nonempty digit run terminated by the
backreferenced opener or by `]` + the same `=`-run + `]` (the latter only
exists when the opener was a long bracket; a backreference to the
unparticipated group 2 fails).  The match need not reach the end of the
line.  Returns the captured digit run. -/
def quotedAfter (op : List Char) (alt : Option (List Char)) (rest : List Char) : Option (List Char) :=
  let digits := rest.takeWhile Char.isDigit
  if digits.isEmpty then none
  else
    let r2 := rest.dropWhile Char.isDigit
    if op.isPrefixOf r2 then some digits
    else
      match alt with
      | some cl => if cl.isPrefixOf r2 then some digits else none
      | none => none

/-- The quoted-numeric token branch `("|'|\[(=*)\[)(\d+)(?:\1|\]\2\])` of
`RE_BUNDLE_DATA`, applied after the leading `[ \t]*` has been stripped. -/
def quotedTok (s : List Char) : Option (List Char) :=
  match s with
  | '"' :: rest => quotedAfter ['"'] none rest
  | '\x27' :: rest => quotedAfter ['\x27'] none rest
  | '[' :: rest =>
    let eqs := rest.takeWhile (· == '=')
    match rest.dropWhile (· == '=') with
    | '[' :: rest2 => quotedAfter ('[' :: (eqs ++ ['['])) (some (']' :: (eqs ++ [']']))) rest2
    | _ => none
  | _ => none

/-- The key/value split of the directive branch `(.+?)(?:[ \t]+(.+)|$)`:
the lazy key grows until it is followed by whitespace with something
left on the line (the greedy `[ \t]+` then eats the whitespace run and
the greedy `(.+)` the remainder; if the remainder is all whitespace the
`[ \t]+` backs off one character so `(.+)` captures the final whitespace
character), or until the end of the line (value absent).  `acc` holds the
reversed key read so far. -/
def dirScan : List Char → List Char → List Char × Option (List Char)
  | acc, [] => (acc.reverse, none)
  | acc, c :: rest =>
    if isWsC c then
      if rest.isEmpty then (acc.reverse ++ [c], none)
      else
        match (c :: rest).dropWhile isWsC with
        | [] => (acc.reverse, some [(c :: rest).getLastD c])
        | v => (acc.reverse, some v)
    else dirScan (c :: acc) rest

/-- One line of input against `RE_BUNDLE_DATA`: strip `[ \t]*`, try the
quoted-numeric branch, then the directive branch `--#[ \t]*+(.+?)…`
(the possessive `[ \t]*+` never gives back, so a line that is `--#`
followed only by whitespace has no match). -/
def lineMatch (line : List Char) : Option Token :=
  let s := line.dropWhile isWsC
  match quotedTok s with
  | some d => some (.item d)
  | none =>
    match s with
    | '-' :: '-' :: '#' :: r0 =>
      let r := r0.dropWhile isWsC
      if r.isEmpty then none
      else
        let kv := dirScan [] r
        some (.directive kv.1 kv.2)
    | _ => none

/-- Split the input at `\n`; the multi-line `^` of the regex anchors each
match at one of these line starts. -/
def splitLines : List Char → List (List Char)
  | [] => [[]]
  | c :: rest =>
    let r := splitLines rest
    if c = '\n' then [] :: r
    else
      match r with
      | [] => [[c]]
      | l :: ls => (c :: l) :: ls

/-- The successive matches of `RE_BUNDLE_DATA.captures_iter` over the
input: one potential match per line, in line order. -/
def tokensOf (src : List Char) : List Token := (splitLines src).filterMap lineMatch

/-- `BundleCollectionLink` of bundles.rs.  The Rust fields are named
`include`/`exclude`; `include` is a Lean keyword, so the fields are
`incl`/`excl` here. -/
structure BundleCollectionLink where
  id : Nat
  incl : List Nat
  excl : List Nat
deriving DecidableEq, Repr

/-- `Bundle` of bundles.rs (`updated` is an abstract instant). -/
structure Bundle where
  id : Nat
  name : String
  updated : Nat
  collection : Option BundleCollectionLink
  items : List Nat
deriving DecidableEq, Repr

/-- `BundleError` of bundles.rs. -/
inductive BundleError where
  | ParseError
  | NoItemsFound
deriving DecidableEq, Repr

/-- Accumulator of the `captures_iter` loop in `Bundle::import`. -/
structure ParseAcc where
  bundleStart : Bool
  name : String
  collection : Option BundleCollectionLink
  updated : Nat
  items : List Nat
deriving DecidableEq, Repr

/-- The `captures_iter` loop of `Bundle::import` (bundles.rs:80-117):
group 4 present — on `bundle` set the flag or, if already set, break;
otherwise require group 5 and dispatch on `name`/`collection`/`updated`;
group 3 present — parse the digits as `u64` and push, skipping on
parse failure. -/
def importLoop : List Token → ParseAcc → ParseAcc
  | [], acc => acc
  | .directive key val :: ts, acc =>
    if key = "bundle".data then
      if acc.bundleStart = false then
        importLoop ts ⟨true, acc.name, acc.collection, acc.updated, acc.items⟩
      else acc
    else
      match val with
      | none => importLoop ts acc
      | some v =>
        if key = "name".data then
          importLoop ts ⟨acc.bundleStart, ⟨v⟩, acc.collection, acc.updated, acc.items⟩
        else if key = "collection".data then
          match parseU64 v with
          | some cid => importLoop ts ⟨acc.bundleStart, acc.name, some ⟨cid, [], []⟩, acc.updated, acc.items⟩
          | none => importLoop ts acc
        else if key = "updated".data then
          match parseRfc2822 v with
          | some t => importLoop ts ⟨acc.bundleStart, acc.name, acc.collection, t, acc.items⟩
          | none => importLoop ts acc
        else importLoop ts acc
  | .item d :: ts, acc =>
    match parseU64 d with
    | some n => importLoop ts ⟨acc.bundleStart, acc.name, acc.collection, acc.updated, acc.items ++ [n]⟩
    | none => importLoop ts acc

/-- The `while left < right` loop of Rust `slice::binary_search_by`
applied to `|p| key p` against target `t` (`Less` ⇒ move `left` past
`mid`, `Greater` ⇒ move `right` to `mid`, `Equal` ⇒ `Ok(mid)`), with
structural fuel; `rustBinarySearch` supplies fuel that always suffices. -/
def rbsAux {α : Type} (key : α → Nat) (t : Nat) (l : List α) : Nat → Nat → Nat → Except Nat Nat
  | 0, left, _ => .error left
  | fuel + 1, left, right =>
    if left < right then
      match l.get? (left + (right - left) / 2) with
      | none => .error left
      | some v =>
        if key v < t then rbsAux key t l fuel (left + (right - left) / 2 + 1) right
        else if t < key v then rbsAux key t l fuel left (left + (right - left) / 2)
        else .ok (left + (right - left) / 2)
    else .error left

/-- Rust `slice::binary_search` of `t` in `l` under the key `key`
(`Ord::cmp` on bundles compares only `updated`; on `PublishedFileId` it
compares the number). -/
def rustBinarySearch {α : Type} (key : α → Nat) (t : Nat) (l : List α) : Except Nat Nat :=
  rbsAux key t l (l.length + 1) 0 l.length

/-- The reconciliation loop of `Bundle::import` (bundles.rs:125-135):
for each collection member in oracle order, `binary_search` the working
item list; on `Ok(pos)` remove the item at `pos` and push the member to
`include`, on `Err` push it to `exclude`.  Note the source never sorts
the working list. -/
def reconcileLoop : List Nat → List Nat → List Nat → List Nat → List Nat × List Nat × List Nat
  | [], items, inc, exc => (items, inc, exc)
  | m :: ms, items, inc, exc =>
    match rustBinarySearch (fun x => x) m items with
    | .ok pos => reconcileLoop ms (items.eraseIdx pos) (inc ++ [m]) exc
    | .error _ => reconcileLoop ms items inc (exc ++ [m])

/-- `Bundle::import` (bundles.rs:72-149) as a function of the source
text, the current instant (`Utc::now`), the collection oracle, and the
value of the store's `id` counter it reads at line 141.  The returned id
is `counter + 1` as a `u16` (wrapping add); the counter itself is not
written. -/
def Bundle.importChars (src : List Char) (now : Nat) (orc : Nat → Option (List Nat)) (storeId : Nat) :
    Except BundleError Bundle :=
  let acc := importLoop (tokensOf src) ⟨false, "", none, now, []⟩
  if acc.items.isEmpty then .error .NoItemsFound
  else
    match acc.collection with
    | none => .ok ⟨(storeId + 1) % 65536, acc.name, acc.updated, none, acc.items⟩
    | some c =>
      match orc c.id with
      | none => .ok ⟨(storeId + 1) % 65536, acc.name, acc.updated, some c, acc.items⟩
      | some members =>
        let r := reconcileLoop members acc.items c.incl c.excl
        .ok ⟨(storeId + 1) % 65536, acc.name, acc.updated, some ⟨c.id, r.2.1, r.2.2⟩, r.1⟩

/-- `Bundle::import` on a `String` source. -/
def Bundle.importStr (src : String) (now : Nat) (orc : Nat → Option (List Nat)) (storeId : Nat) :
    Except BundleError Bundle :=
  Bundle.importChars src.data now orc storeId

/-- `HashMap::get` on the item-name map, modelled as an association
list (`Bundle::export` only ever calls `get`). -/
def lookupName (names : List (Nat × String)) (it : Nat) : Option String :=
  match names.find? (fun p => p.1 == it) with
  | some p => some p.2
  | none => none

/-- The item loops of `Bundle::export` (bundles.rs:175-183 and 195-203):
push `"` and the decimal id; only when a display name is known push
`" -- `, the name and the newline. -/
def itemLines (items : List Nat) (names : List (Nat × String)) : String :=
  items.foldl
    (fun acc it =>
      acc ++ "\"" ++ natStr it ++
        match lookupName names it with
        | some n => "\" -- " ++ n ++ "\n"
        | none => "")
    ""

/-- `Bundle::export` (bundles.rs:151-210). -/
def Bundle.export (b : Bundle) (names : List (Nat × String)) (collection_name : Option String) : String :=
  "-- generated by gmpublisher\n" ++
  "-- https://gmpublisher.download\n" ++
  "--# bundle\n" ++
  "--# name " ++ b.name ++ "\n" ++
  (match b.collection with
   | some c => "--# collection " ++ natStr c.id ++ "\n"
   | none => "") ++
  "--# updated " ++ rfc2822Render b.updated ++ "\n" ++
  "for _,w in ipairs(\x7b\n\n" ++
  itemLines b.items names ++
  (match b.collection with
   | some c =>
     "\n-- Collection\n" ++
     (match collection_name with
      | some n => "-- " ++ n ++ "\n"
      | none => "") ++
     "-- https://steamcommunity.com/sharedfiles/filedetails/?id=" ++ natStr c.id ++ "\n" ++
     itemLines c.incl names
   | none => "") ++
  "\n\x7d) do resource.AddWorkshop(w) end"

/-- The `Bundles` store: the ordered in-memory index and the id counter. -/
structure Bundles where
  saved : List Bundle
  id : Nat
deriving DecidableEq, Repr

/-- The body of `update_bundle`'s index mutation (bundles.rs:268-271):
binary-search `saved` for `bundle` — by `Ord for Bundle`, i.e. comparing
`updated` only — and replace on `Ok(pos)`, insert on `Err(pos)`. -/
def upsertIndex (saved : List Bundle) (b : Bundle) : List Bundle :=
  match rustBinarySearch (fun x => x.updated) b.updated saved with
  | .ok pos => saved.set pos b
  | .error pos => saved.insertIdx pos b

/-- One directory entry of `Bundles::init` (bundles.rs:227-239): a failed
deserialization (`none`) is skipped; otherwise the id counter takes the
max and the bundle is inserted at the binary-search position (on both
`Ok` and `Err` the source inserts at `pos`). -/
def initStep (st : Bundles) (e : Option Bundle) : Bundles :=
  match e with
  | none => st
  | some c =>
    ⟨(match rustBinarySearch (fun x => x.updated) c.updated st.saved with
      | .ok pos => st.saved.insertIdx pos c
      | .error pos => st.saved.insertIdx pos c),
     max st.id c.id⟩

/-- `Bundles::init` (bundles.rs:219-244) over the directory's
deserialization results in enumeration order. -/
def Bundles.init (entries : List (Option Bundle)) : Bundles :=
  entries.foldl initStep ⟨[], 0⟩

/-- The world visible to the tauri commands: the `BUNDLES` store and the
per-bundle files (keyed by the decimal bundle id the file is named by). -/
structure World where
  store : Bundles
  disk : List (Nat × Bundle)
deriving DecidableEq, Repr

/-- `File::create` + `bincode::serialize_into` for bundle `b`
(bundles.rs:265-266): may fail (injected through `fail`), otherwise
replaces the file named by `b.id`. -/
def fileWrite (disk : List (Nat × Bundle)) (fail : Bool) (b : Bundle) :
    Except Unit (List (Nat × Bundle)) :=
  if fail then .error ()
  else .ok ((b.id, b) :: disk.filter (fun p => p.1 != b.id))

/-- `update_bundle` (bundles.rs:261-274): write the per-bundle file; on
failure the `try_block` exits with `false` before the index is touched;
on success mutate the index and return `true`. -/
def update_bundleOp (w : World) (fail : Bool) (b : Bundle) : Bool × World :=
  match fileWrite w.disk fail b with
  | .error _ => (false, w)
  | .ok d => (true, ⟨⟨upsertIndex w.store.saved b, w.store.id⟩, d⟩)

/-- `Bundle::import` as an operation on the world: it parses, consults
the oracle, and reads `BUNDLES.lock().id` (bundles.rs:141); those are its
only interactions with shared state, so the world component is returned
unchanged. -/
def importOp (w : World) (src : String) (now : Nat) (orc : Nat → Option (List Nat)) :
    Except BundleError Bundle × World :=
  (Bundle.importChars src.data now orc w.store.id, w)

/-! ## Concrete stores and bundles used by the closed theorems -/

/-- Store holding one bundle with id 1 last updated at instant 10. -/
def storeU10 : Bundle := ⟨1, "", 10, none, []⟩

/-- The same bundle re-saved with a later `updated` instant 20. -/
def storeU20 : Bundle := ⟨1, "", 20, none, []⟩

/-- Bundle id 1, updated 5 (tie partner of `tieB2`). -/
def tieB1 : Bundle := ⟨1, "", 5, none, []⟩

/-- Bundle id 2, updated 5 (tie partner of `tieB1`). -/
def tieB2 : Bundle := ⟨2, "", 5, none, []⟩

/-- A bundle with a single unnamed item 42. -/
def oneItemBundle : Bundle := ⟨1, "B", 0, none, [42]⟩

/-- A bundle with two unnamed items 42 and 43. -/
def twoItemBundle : Bundle := ⟨1, "X", 0, none, [42, 43]⟩

/-- A minimal importable script: a `bundle` directive and one item. -/
def minimalSrc : String := "--# bundle\n\"42\"\n"

/-- A world whose store has issued ids up to 5 and holds nothing. -/
def worldId5 : World := ⟨⟨[], 5⟩, []⟩

/-- Claim C1: `Bundle::import` reads `BUNDLES.lock().id + 1` (bundles.rs:141)
without ever storing the increment, and `update_bundle` never touches the
counter either; so importing, persisting the result, and importing again
returns the *same* id 6 from a counter at 5 — imports do not return
strictly increasing, pairwise distinct ids.  This theorem evaluates the
code at that failing input. -/
theorem import_id_never_advances :
    (importOp worldId5 minimalSrc 0 (fun _ => none)).1 = .ok ⟨6, "", 0, none, [42]⟩ ∧
    (importOp
        (update_bundleOp (importOp worldId5 minimalSrc 0 (fun _ => none)).2 false
          ⟨6, "", 0, none, [42]⟩).2
        minimalSrc 0 (fun _ => none)).1 = .ok ⟨6, "", 0, none, [42]⟩ := by
  constructor <;> rfl

/-- Claim C2, counterexample: the codec does *not* sort the working item
list before reconciling.  Parsing items in the order `[3, 1]` with the
oracle returning membership `[3]`, the unsorted `binary_search` fails to
find 3, so the present member 3 lands in `exclude` and stays in `items`
— the claim demands `items = [1]`, `include = [3]`, `exclude = []`. -/
theorem reconcile_unsorted_misplaces_member :
    Bundle.importStr "--# bundle\n--# collection 100\n\"3\"\n\"1\"\n" 0
        (fun c => if c = 100 then some [3] else none) 0 =
      .ok ⟨1, "", 0, some ⟨100, [], [3]⟩, [3, 1]⟩ ∧
    (3 : Nat) ∈ [3, 1] := by
  constructor
  · rfl
  · decide

/-- Claim C3: the export of a bundle whose only item has no display name
omits the item's closing quote and newline (bundles.rs:178-182 has no
else branch), so re-parsing the exported text finds no item token and
fails with `NoItemsFound` instead of round-tripping. -/
theorem roundtrip_fails_for_unnamed_item :
    Bundle.importStr (Bundle.export oneItemBundle [] none) 0 (fun _ => none) 0 =
      .error .NoItemsFound := by
  rfl

/-- Claim C4, counterexample: an input with *no* `bundle` directive at all
still imports successfully when it contains an item token — item tokens
outside `InBundle` are pushed like any other (bundles.rs:108-112 never
consults `bundle_start`), contradicting "fails with NoItemsFound". -/
theorem import_without_bundle_directive_succeeds :
    Bundle.importStr "\"42\"\n" 0 (fun _ => none) 0 = .ok ⟨1, "", 0, none, [42]⟩ ∧
    Bundle.importStr "\"42\"\n" 0 (fun _ => none) 0 ≠ .error .NoItemsFound := by
  have h1 : Bundle.importStr "\"42\"\n" 0 (fun _ => none) 0 = .ok ⟨1, "", 0, none, [42]⟩ := rfl
  refine ⟨h1, ?_⟩
  rw [h1]
  exact fun h => Except.noConfusion h

/-- Claim C5: exporting two unnamed items writes `"42"43` — the closing
quote and newline of an unnamed item are *not* written (the `if let` at
bundles.rs:178 has no else branch), so the two entries share a line,
contrary to "an item always appears on its own line". -/
theorem export_unnamed_items_share_a_line :
    Bundle.export twoItemBundle [] none =
      "-- generated by gmpublisher\n-- https://gmpublisher.download\n--# bundle\n--# name X\n--# updated 0\nfor _,w in ipairs(\x7b\n\n\"42\"43\n\x7d) do resource.AddWorkshop(w) end" := by
  rfl

/-- Claim C6, counterexample: upserting bundle id 1 with a new `updated`
instant 20 into a store whose only entry is bundle id 1 at instant 10
binary-searches by `updated` (the `Ord for Bundle` at bundles.rs:66-70),
finds nothing, and *inserts* — leaving two entries with id 1. -/
theorem upsert_leaves_duplicate_id :
    upsertIndex [storeU10] storeU20 = [storeU10, storeU20] ∧
    (upsertIndex [storeU10] storeU20).countP (fun x => x.id == 1) = 2 := by
  constructor <;> rfl

/-- Claim C7, counterexample: `init` over two bundles sharing `updated = 5`,
enumerated as id 1 then id 2, inserts the second at the `Ok` position
*before* the first, yielding the order `[id 2, id 1]` — not sorted by the
pair `(updated, id)`; ties are not broken by id. -/
theorem init_tie_order_not_id_sorted :
    (Bundles.init [some tieB1, some tieB2]).saved = [tieB2, tieB1] ∧
    ¬ (Bundles.init [some tieB1, some tieB2]).saved.Pairwise
        (fun x y => x.updated < y.updated ∨ (x.updated = y.updated ∧ x.id < y.id)) := by
  constructor
  · rfl
  · decide

/-- Claim C8: `update_bundle` writes the per-bundle file first
(bundles.rs:265-266); a write failure exits the `try_block` with `false`
before the index is touched, leaving the whole world unchanged; only a
successful write reaches the index mutation (bundles.rs:268-271). -/
theorem update_bundle_fail_leaves_state :
    ∀ (w : World) (b : Bundle),
      update_bundleOp w true b = (false, w) ∧
      (update_bundleOp w false b).1 = true ∧
      (update_bundleOp w false b).2.store.saved = upsertIndex w.store.saved b ∧
      (update_bundleOp w false b).2.store.id = w.store.id := by
  intro w b
  exact ⟨rfl, rfl, rfl, rfl⟩

/-- Claim C9, counterexample: the regex demands the digit run immediately
after the long-bracket opener (`\[(=*)\[)(\d+)` has nothing between
opener and digits), so `[==[ 7 ]==]` — with interior spaces — matches
nothing: token 7 is *not* captured and the import fails with
`NoItemsFound` rather than yielding item 7. -/
theorem long_bracket_interior_spaces_lose_token :
    Bundle.importStr "--# bundle\n[==[ 7 ]==]\n" 0 (fun _ => none) 0 =
      .error .NoItemsFound := by
  rfl

/-- Claim C10: `Bundle::import` only reads shared state — the oracle and
the store's id counter (bundles.rs:141) — so the world (index, counter
and disk) after an import, successful or failed, is the world before. -/
theorem import_leaves_world_unchanged :
    ∀ (w : World) (src : String) (now : Nat) (orc : Nat → Option (List Nat)),
      (importOp w src now orc).2 = w ∧
      (importOp w src now orc).2.store.saved = w.store.saved ∧
      (importOp w src now orc).2.store.id = w.store.id ∧
      (importOp w src now orc).2.disk = w.disk := by
  intro w src now orc
  exact ⟨rfl, rfl, rfl, rfl⟩

/-! ## Correctness of the embedded binary search on key-sorted lists -/

/-- Along a list pairwise-sorted by `key`, the key is monotone in the index. -/
theorem sorted_key_mono {α : Type} {key : α → Nat} {l : List α}
    (hs : l.Pairwise (fun a b => key a ≤ key b))
    {i j : Nat} (hi : i < l.length) (hj : j < l.length) (hij : i ≤ j) :
    key (l.get ⟨i, hi⟩) ≤ key (l.get ⟨j, hj⟩) := by
  rcases Nat.lt_or_ge i j with h | h
  · have := List.pairwise_iff_getElem.mp hs i j hi hj h
    simpa [List.get_eq_getElem] using this
  · have hij2 : i = j := Nat.le_antisymm hij h
    subst hij2
    exact Nat.le_refl _

/-- Loop invariant of `rbsAux` on a key-sorted list: everything left of
`left` has key below `t`, everything from `right` on has key above `t`.
Then the loop either returns `Ok i` at an index whose key equals `t`, or
`Err p` at a position with all keys below `t` strictly before it and all
keys above `t` from it on. -/
theorem rbsAux_spec {α : Type} (key : α → Nat) (t : Nat) (l : List α)
    (hs : l.Pairwise (fun a b => key a ≤ key b)) :
    ∀ (fuel left right : Nat), right - left < fuel → left ≤ right → right ≤ l.length →
      (∀ j (hj : j < l.length), j < left → key (l.get ⟨j, hj⟩) < t) →
      (∀ j (hj : j < l.length), right ≤ j → t < key (l.get ⟨j, hj⟩)) →
      (∃ i, rbsAux key t l fuel left right = .ok i ∧
        ∃ hi : i < l.length, key (l.get ⟨i, hi⟩) = t) ∨
      (∃ p, rbsAux key t l fuel left right = .error p ∧ p ≤ l.length ∧
        (∀ j (hj : j < l.length), j < p → key (l.get ⟨j, hj⟩) < t) ∧
        (∀ j (hj : j < l.length), p ≤ j → t < key (l.get ⟨j, hj⟩))) := by
  intro fuel
  induction fuel with
  | zero =>
    intro left right hf _ _ _ _
    omega
  | succ fuel ih =>
    intro left right hf hlr hrl hL hR
    by_cases hc : left < right
    · have hmid : left + (right - left) / 2 < l.length := by omega
      have hget : l.get? (left + (right - left) / 2) =
          some (l.get ⟨left + (right - left) / 2, hmid⟩) := by
        rw [List.get?_eq_getElem?, List.getElem?_eq_getElem hmid, List.get_eq_getElem]
      by_cases h1 : key (l.get ⟨left + (right - left) / 2, hmid⟩) < t
      · have hstep : rbsAux key t l (fuel + 1) left right =
            rbsAux key t l fuel (left + (right - left) / 2 + 1) right := by
          simp only [rbsAux, if_pos hc, hget, if_pos h1]
        rw [hstep]
        refine ih (left + (right - left) / 2 + 1) right (by omega) (by omega) hrl ?_ hR
        intro j hj hjlt
        exact Nat.lt_of_le_of_lt (sorted_key_mono hs hj hmid (by omega)) h1
      · by_cases h2 : t < key (l.get ⟨left + (right - left) / 2, hmid⟩)
        · have hstep : rbsAux key t l (fuel + 1) left right =
              rbsAux key t l fuel left (left + (right - left) / 2) := by
            simp only [rbsAux, if_pos hc, hget, if_neg h1, if_pos h2]
          rw [hstep]
          refine ih left (left + (right - left) / 2) (by omega) (by omega) (by omega) hL ?_
          intro j hj hjge
          exact Nat.lt_of_lt_of_le h2 (sorted_key_mono hs hmid hj hjge)
        · have heq : key (l.get ⟨left + (right - left) / 2, hmid⟩) = t := by omega
          left
          refine ⟨left + (right - left) / 2, ?_, hmid, heq⟩
          simp only [rbsAux, if_pos hc, hget, if_neg h1, if_neg h2]
    · right
      refine ⟨left, ?_, by omega, hL, ?_⟩
      · simp only [rbsAux, if_neg hc]
      · intro j hj hjge
        exact hR j hj (by omega)

/-- `slice::binary_search` on a key-sorted list either finds an index with
the target key, or reports an insertion point bracketed by strictly
smaller keys before and strictly larger keys after. -/
theorem rustBinarySearch_spec {α : Type} (key : α → Nat) (t : Nat) (l : List α)
    (hs : l.Pairwise (fun a b => key a ≤ key b)) :
    (∃ i, rustBinarySearch key t l = .ok i ∧
      ∃ hi : i < l.length, key (l.get ⟨i, hi⟩) = t) ∨
    (∃ p, rustBinarySearch key t l = .error p ∧ p ≤ l.length ∧
      (∀ j (hj : j < l.length), j < p → key (l.get ⟨j, hj⟩) < t) ∧
      (∀ j (hj : j < l.length), p ≤ j → t < key (l.get ⟨j, hj⟩))) :=
  rbsAux_spec key t l hs (l.length + 1) 0 l.length (by omega) (by omega) (by omega)
    (fun j hj hjlt => absurd hjlt (by omega))
    (fun j hj hjge => absurd hj (by omega))

/-- On a key-sorted list, a binary-search miss means no element has the
target key. -/
theorem rustBinarySearch_err_not_mem {α : Type} {key : α → Nat} {t : Nat} {l : List α}
    (hs : l.Pairwise (fun a b => key a ≤ key b)) {p : Nat}
    (herr : rustBinarySearch key t l = .error p) :
    ∀ j (hj : j < l.length), key (l.get ⟨j, hj⟩) ≠ t := by
  rcases rustBinarySearch_spec key t l hs with ⟨i, hok, _⟩ | ⟨q, herq, _, hlt, hgt⟩
  · rw [hok] at herr
    exact absurd herr (fun h => Except.noConfusion h)
  · rw [herq] at herr
    have hqp : q = p := by
      injection herr
    subst hqp
    intro j hj
    rcases Nat.lt_or_ge j q with h | h
    · exact Nat.ne_of_lt (hlt j hj h)
    · exact (Nat.ne_of_lt (hgt j hj h)).symm

/-- `Vec::insert` at a position within bounds is take/cons/drop. -/
theorem insertIdx_eq_take_cons_drop {α : Type} (l : List α) (p : Nat) (b : α)
    (hp : p ≤ l.length) :
    l.insertIdx p b = l.take p ++ b :: l.drop p := by
  induction l generalizing p with
  | nil =>
    have hp0 : p = 0 := by simpa using hp
    subst hp0
    rfl
  | cons a l ih =>
    cases p with
    | zero => rfl
    | succ p =>
      have hp2 : p ≤ l.length := by simpa using hp
      simp [List.insertIdx_succ_cons, ih p hp2]

/-! ## Reconciliation on a sorted working list -/

/-- A strictly ascending list has no duplicates. -/
theorem strict_sorted_nodup {l : List Nat} (h : l.Pairwise (· < ·)) : l.Nodup :=
  h.imp (fun hlt => Nat.ne_of_lt hlt)

/-- On a duplicate-free list, `Vec::remove` at the index of an element is
`erase` of that element. -/
theorem eraseIdx_eq_erase_of_nodup {l : List Nat} (hnd : l.Nodup) (i : Nat) (hi : i < l.length) :
    l.eraseIdx i = l.erase (l.get ⟨i, hi⟩) := by
  induction l generalizing i with
  | nil => cases hi
  | cons a l ih =>
    cases i with
    | zero => simp
    | succ i =>
      have hi2 : i < l.length := by simpa using hi
      have hmem : l.get ⟨i, hi2⟩ ∈ l := l.get_mem i hi2
      have hne : a ≠ l.get ⟨i, hi2⟩ := by
        intro h
        exact (List.nodup_cons.mp hnd).1 (h ▸ hmem)
      have hget : (a :: l).get ⟨i + 1, hi⟩ = l.get ⟨i, hi2⟩ := rfl
      rw [hget, List.eraseIdx_cons_succ,
        List.erase_cons_tail (by simpa using hne), ih (List.nodup_cons.mp hnd).2 i hi2]

/-- Dropping the `m`-filter after erasing `m` from a duplicate-free list. -/
theorem erase_filter_not_mem {l : List Nat} (hnd : l.Nodup) (m : Nat) (ms : List Nat) :
    (l.erase m).filter (fun x => decide (x ∉ ms)) =
      l.filter (fun x => decide (x ∉ m :: ms)) := by
  induction l with
  | nil => rfl
  | cons a l ih =>
    rcases List.nodup_cons.mp hnd with ⟨hal, hl⟩
    by_cases ham : a = m
    · subst ham
      rw [List.erase_cons_head]
      have : l.filter (fun x => decide (x ∉ a :: ms)) = l.filter (fun x => decide (x ∉ ms)) := by
        apply List.filter_congr
        intro x hx
        have hxa : x ≠ a := fun h => hal (h ▸ hx)
        apply decide_eq_decide.mpr
        simp [List.mem_cons, hxa]
      rw [List.filter_cons_of_neg, this]
      simp
    · rw [List.erase_cons_tail (by simpa using ham)]
      have hcond : decide (a ∉ ms) = decide (a ∉ m :: ms) := by
        apply decide_eq_decide.mpr
        simp [List.mem_cons, ham]
      by_cases hmem : a ∉ ms
      · rw [List.filter_cons_of_pos (by simpa using hmem),
            List.filter_cons_of_pos (by rw [← hcond]; simpa using hmem), ih hl]
      · rw [List.filter_cons_of_neg (by simpa using hmem),
            List.filter_cons_of_neg (by rw [← hcond]; simpa using hmem), ih hl]

/-- Two membership filters agree on a list avoiding `m`. -/
theorem filter_mem_erase_congr {working ms : List Nat} {m : Nat} (hm : m ∉ ms) :
    ms.filter (fun x => decide (x ∈ working.erase m)) =
      ms.filter (fun x => decide (x ∈ working)) := by
  apply List.filter_congr
  intro x hx
  have hxm : x ≠ m := fun h => hm (h ▸ hx)
  apply decide_eq_decide.mpr
  exact List.mem_erase_of_ne hxm

/-- As `filter_mem_erase_congr`, for the complements. -/
theorem filter_not_mem_erase_congr {working ms : List Nat} {m : Nat} (hm : m ∉ ms) :
    ms.filter (fun x => decide (x ∉ working.erase m)) =
      ms.filter (fun x => decide (x ∉ working)) := by
  apply List.filter_congr
  intro x hx
  have hxm : x ≠ m := fun h => hm (h ▸ hx)
  apply decide_eq_decide.mpr
  exact not_congr (List.mem_erase_of_ne hxm)

/-- The reconciliation loop of `Bundle::import`, on a strictly ascending
working list and a duplicate-free membership list, computes the partition
the spec describes: survivors keep parse order, `include`/`exclude`
extend in oracle order. -/
theorem reconcileLoop_correct :
    ∀ (ms working inc exc : List Nat),
      working.Pairwise (· < ·) → ms.Nodup →
      reconcileLoop ms working inc exc =
        (working.filter (fun x => decide (x ∉ ms)),
         inc ++ ms.filter (fun m => decide (m ∈ working)),
         exc ++ ms.filter (fun m => decide (m ∉ working))) := by
  intro ms
  induction ms with
  | nil =>
    intro working inc exc hw hms
    simp [reconcileLoop, List.filter_true]
  | cons m ms ih =>
    intro working inc exc hw hms
    have hle : working.Pairwise (fun a b => a ≤ b) := hw.imp Nat.le_of_lt
    have hnd := strict_sorted_nodup hw
    have hmnotms : m ∉ ms := (List.nodup_cons.mp hms).1
    have hmstail : ms.Nodup := (List.nodup_cons.mp hms).2
    rcases rustBinarySearch_spec (fun x => x) m working hle with ⟨i, hok, hi, hkey⟩ | ⟨p, herr, _, _, _⟩
    · have hmem : m ∈ working := by
        rw [← hkey]
        exact working.get_mem i hi
      have herase : working.eraseIdx i = working.erase m := by
        rw [eraseIdx_eq_erase_of_nodup hnd i hi, hkey]
      have hw2 : (working.erase m).Pairwise (· < ·) := hw.sublist (working.erase_sublist m)
      have step : reconcileLoop (m :: ms) working inc exc =
          reconcileLoop ms (working.erase m) (inc ++ [m]) exc := by
        simp only [reconcileLoop, hok, herase]
      rw [step, ih _ _ _ hw2 hmstail]
      refine Prod.ext ?_ (Prod.ext ?_ ?_)
      · exact erase_filter_not_mem hnd m ms
      · show (inc ++ [m]) ++ ms.filter (fun x => decide (x ∈ working.erase m)) =
          inc ++ (m :: ms).filter (fun x => decide (x ∈ working))
        rw [List.filter_cons_of_pos (by simpa using hmem), filter_mem_erase_congr hmnotms,
          List.append_assoc]
        rfl
      · show exc ++ ms.filter (fun x => decide (x ∉ working.erase m)) =
          exc ++ (m :: ms).filter (fun x => decide (x ∉ working))
        rw [List.filter_cons_of_neg (by simpa using hmem), filter_not_mem_erase_congr hmnotms]
    · have hnotmem : m ∉ working := by
        intro hmem
        rcases List.mem_iff_get.mp hmem with ⟨j, hj⟩
        exact rustBinarySearch_err_not_mem hle herr j.1 j.2 (by simpa using hj)
      have step : reconcileLoop (m :: ms) working inc exc =
          reconcileLoop ms working inc (exc ++ [m]) := by
        simp only [reconcileLoop, herr]
      rw [step, ih _ _ _ hw hmstail]
      refine Prod.ext ?_ (Prod.ext ?_ ?_)
      · show working.filter (fun x => decide (x ∉ ms)) =
          working.filter (fun x => decide (x ∉ m :: ms))
        apply List.filter_congr
        intro x hx
        have hxm : x ≠ m := fun h => hnotmem (h ▸ hx)
        apply decide_eq_decide.mpr
        simp [List.mem_cons, hxm]
      · show inc ++ ms.filter (fun x => decide (x ∈ working)) =
          inc ++ (m :: ms).filter (fun x => decide (x ∈ working))
        rw [List.filter_cons_of_neg (by simpa using hnotmem)]
      · show (exc ++ [m]) ++ ms.filter (fun x => decide (x ∉ working)) =
          exc ++ (m :: ms).filter (fun x => decide (x ∉ working))
        rw [List.filter_cons_of_pos (by simpa using hnotmem), List.append_assoc]
        rfl

/-- Claim C2 (amended): the codec does not sort the working item list; it
binary-searches the list in parse order.  Whenever the parsed working
list is already strictly ascending and the oracle membership is
duplicate-free, the partition is as claimed: `include` collects the
members present in the working list and `exclude` the absent ones, both
in oracle order, and `items` keeps the surviving entries in parse order. -/
theorem reconcile_correct_when_parse_order_sorted
    (working ms : List Nat) (hw : working.Pairwise (· < ·)) (hms : ms.Nodup) :
    reconcileLoop ms working [] [] =
      (working.filter (fun x => decide (x ∉ ms)),
       ms.filter (fun m => decide (m ∈ working)),
       ms.filter (fun m => decide (m ∉ working))) := by
  have h := reconcileLoop_correct ms working [] [] hw hms
  simpa using h

/-- Witness for `reconcile_correct_when_parse_order_sorted` at the spec's
own example: items `[1,2,3,5]`, membership `[2,3,4]`, giving
`items=[1,5]`, `include=[2,3]`, `exclude=[4]`. -/
theorem reconcile_correct_when_parse_order_sorted_witness :
    ([1, 2, 3, 5] : List Nat).Pairwise (· < ·) ∧ ([2, 3, 4] : List Nat).Nodup ∧
    reconcileLoop [2, 3, 4] [1, 2, 3, 5] [] [] = ([1, 5], [2, 3], [4]) := by
  refine ⟨by decide, by decide, ?_⟩
  rw [reconcile_correct_when_parse_order_sorted [1, 2, 3, 5] [2, 3, 4] (by decide) (by decide)]
  decide

/-! ## Ordering invariants of the store index -/

/-- In a pairwise-related list, every element strictly before index `i`
relates to the element at `i`. -/
theorem pairwise_take_rel {α : Type} {R : α → α → Prop} {l : List α}
    (hs : l.Pairwise R) {i : Nat} (hi : i < l.length) :
    ∀ x ∈ l.take i, R x (l.get ⟨i, hi⟩) := by
  intro x hx
  have hdecomp : l = l.take i ++ l.get ⟨i, hi⟩ :: l.drop (i + 1) := by
    conv_lhs => rw [← List.take_append_drop i l]
    congr 1
    rw [List.drop_eq_getElem_cons hi, List.get_eq_getElem]
  rw [hdecomp] at hs
  rcases List.pairwise_append.mp hs with ⟨_, _, hcross⟩
  exact hcross x hx _ (List.mem_cons_self _ _)

/-- In a pairwise-related list, the element at index `i` relates to every
element strictly after it. -/
theorem pairwise_drop_rel {α : Type} {R : α → α → Prop} {l : List α}
    (hs : l.Pairwise R) {i : Nat} (hi : i < l.length) :
    ∀ y ∈ l.drop (i + 1), R (l.get ⟨i, hi⟩) y := by
  intro y hy
  have hdecomp : l = l.take i ++ l.get ⟨i, hi⟩ :: l.drop (i + 1) := by
    conv_lhs => rw [← List.take_append_drop i l]
    congr 1
    rw [List.drop_eq_getElem_cons hi, List.get_eq_getElem]
  rw [hdecomp] at hs
  rcases List.pairwise_append.mp hs with ⟨_, hcons, _⟩
  exact (List.pairwise_cons.mp hcons).1 y hy

/-- Claim C6 (amended): `update_bundle` searches the index by `updated`
only, so it replaces whatever entry shares `b.updated` and inserts a new
entry otherwise.  Provided the index is strictly ascending in `updated`
and every stored bundle carrying `b`'s id already carries `b`'s
`updated`, the index after the upsert holds exactly one bundle with id
`b.id`.  (Without that proviso the upsert duplicates the id, as the
closed counterexample above shows.) -/
theorem upsert_keeps_id_unique (saved : List Bundle) (b : Bundle)
    (hs : saved.Pairwise (fun x y => x.updated < y.updated))
    (hcompat : ∀ x ∈ saved, x.id = b.id → x.updated = b.updated) :
    (upsertIndex saved b).countP (fun x => x.id == b.id) = 1 := by
  have hle : saved.Pairwise (fun x y => x.updated ≤ y.updated) := hs.imp Nat.le_of_lt
  rcases rustBinarySearch_spec (fun x => x.updated) b.updated saved hle with
    ⟨i, hok, hi, hkey⟩ | ⟨p, herr, hp, hlt, hgt⟩
  · have hset : upsertIndex saved b = saved.set i b := by
      simp only [upsertIndex, hok]
    rw [hset, List.set_eq_take_cons_drop b hi, List.countP_append, List.countP_cons]
    have htake : (saved.take i).countP (fun x => x.id == b.id) = 0 := by
      rw [List.countP_eq_zero]
      intro x hx hbeq
      have hxid : x.id = b.id := by simpa using hbeq
      have hxu : x.updated = b.updated := hcompat x (List.mem_of_mem_take hx) hxid
      have hxlt : x.updated < (saved.get ⟨i, hi⟩).updated := pairwise_take_rel hs hi x hx
      rw [hkey] at hxlt
      omega
    have hdrop : (saved.drop (i + 1)).countP (fun x => x.id == b.id) = 0 := by
      rw [List.countP_eq_zero]
      intro x hx hbeq
      have hxid : x.id = b.id := by simpa using hbeq
      have hxu : x.updated = b.updated := hcompat x (List.mem_of_mem_drop hx) hxid
      have hxgt : (saved.get ⟨i, hi⟩).updated < x.updated := pairwise_drop_rel hs hi x hx
      rw [hkey] at hxgt
      omega
    simp [htake, hdrop]
  · have hins : upsertIndex saved b = saved.insertIdx p b := by
      simp only [upsertIndex, herr]
    have hall : ∀ x ∈ saved, ¬ ((x.id == b.id) = true) := by
      intro x hx hbeq
      have hxid : x.id = b.id := by simpa using hbeq
      have hxu : x.updated = b.updated := hcompat x hx hxid
      rcases List.mem_iff_get.mp hx with ⟨⟨j, hj⟩, hxj⟩
      rcases Nat.lt_or_ge j p with h | h
      · have := hlt j hj h
        rw [hxj] at this
        omega
      · have := hgt j hj h
        rw [hxj] at this
        omega
    rw [hins, insertIdx_eq_take_cons_drop saved p b hp, List.countP_append, List.countP_cons]
    have htake : (saved.take p).countP (fun x => x.id == b.id) = 0 := by
      rw [List.countP_eq_zero]
      intro x hx
      exact hall x (List.mem_of_mem_take hx)
    have hdrop : (saved.drop p).countP (fun x => x.id == b.id) = 0 := by
      rw [List.countP_eq_zero]
      intro x hx
      exact hall x (List.mem_of_mem_drop hx)
    simp [htake, hdrop]

/-- Witness for `upsert_keeps_id_unique`: re-saving bundle id 2 at its
stored `updated` instant 20 keeps exactly one entry with id 2. -/
theorem upsert_keeps_id_unique_witness :
    ([⟨1, "", 10, none, []⟩, ⟨2, "", 20, none, []⟩] : List Bundle).Pairwise
        (fun x y => x.updated < y.updated) ∧
    (upsertIndex [⟨1, "", 10, none, []⟩, ⟨2, "", 20, none, []⟩]
        ⟨2, "renamed", 20, none, []⟩).countP (fun x => x.id == 2) = 1 :=
  ⟨by decide,
   upsert_keeps_id_unique [⟨1, "", 10, none, []⟩, ⟨2, "", 20, none, []⟩]
     ⟨2, "renamed", 20, none, []⟩ (by decide) (by decide)⟩

/-- Inserting at a position bracketed by smaller-or-equal `updated`s
before and larger-or-equal `updated`s after keeps the index sorted. -/
theorem pairwise_le_insertIdx (l : List Bundle) (b : Bundle) (p : Nat) (hp : p ≤ l.length)
    (hs : l.Pairwise (fun x y => x.updated ≤ y.updated))
    (h1 : ∀ x ∈ l.take p, x.updated ≤ b.updated)
    (h2 : ∀ y ∈ l.drop p, b.updated ≤ y.updated) :
    (l.insertIdx p b).Pairwise (fun x y => x.updated ≤ y.updated) := by
  rw [insertIdx_eq_take_cons_drop l p b hp, List.pairwise_append, List.pairwise_cons]
  refine ⟨hs.sublist (List.take_sublist p l), ⟨h2, hs.sublist (List.drop_sublist p l)⟩, ?_⟩
  intro x hx y hy
  rcases List.mem_cons.mp hy with rfl | hy2
  · exact h1 x hx
  · have hcross : (l.take p ++ l.drop p).Pairwise (fun x y => x.updated ≤ y.updated) := by
      rw [List.take_append_drop]
      exact hs
    exact (List.pairwise_append.mp hcross).2.2 x hx y hy2

/-- A binary-search miss position is bracketed: everything the search
leaves before it has `updated` at most `b.updated`, everything after at
least `b.updated` (strictness weakened to the insert brackets). -/
theorem insert_brackets_of_err {saved : List Bundle} {b : Bundle} {p : Nat}
    (hp : p ≤ saved.length)
    (hlt : ∀ j (hj : j < saved.length), j < p →
      (fun x => x.updated) (saved.get ⟨j, hj⟩) < b.updated)
    (hgt : ∀ j (hj : j < saved.length), p ≤ j →
      b.updated < (fun x => x.updated) (saved.get ⟨j, hj⟩)) :
    (∀ x ∈ saved.take p, x.updated ≤ b.updated) ∧
    (∀ y ∈ saved.drop p, b.updated ≤ y.updated) := by
  constructor
  · intro x hx
    rcases List.mem_iff_getElem.mp hx with ⟨j, hj, hxj⟩
    have hjb : j < p ∧ j < saved.length := by
      rw [List.length_take] at hj
      omega
    have hlt2 : (saved.get ⟨j, hjb.2⟩).updated < b.updated := hlt j hjb.2 hjb.1
    have hgetx : x = saved.get ⟨j, hjb.2⟩ := by
      rw [← hxj, List.getElem_take]
      simp [List.get_eq_getElem]
    rw [hgetx]
    exact Nat.le_of_lt hlt2
  · intro y hy
    rcases List.mem_iff_getElem.mp hy with ⟨j, hj, hyj⟩
    have hjl : p + j < saved.length := by
      rw [List.length_drop] at hj
      omega
    have hgt2 : b.updated < (saved.get ⟨p + j, hjl⟩).updated := hgt (p + j) hjl (Nat.le_add_right p j)
    have hgety : y = saved.get ⟨p + j, hjl⟩ := by
      rw [← hyj, List.getElem_drop]
      simp [List.get_eq_getElem]
    rw [hgety]
    exact Nat.le_of_lt hgt2

/-- `update_bundle`'s index mutation preserves sortedness by `updated`. -/
theorem upsertIndex_pairwise (saved : List Bundle) (b : Bundle)
    (hs : saved.Pairwise (fun x y => x.updated ≤ y.updated)) :
    (upsertIndex saved b).Pairwise (fun x y => x.updated ≤ y.updated) := by
  rcases rustBinarySearch_spec (fun x => x.updated) b.updated saved hs with
    ⟨i, hok, hi, hkey⟩ | ⟨p, herr, hp, hlt, hgt⟩
  · have hset : upsertIndex saved b = saved.set i b := by
      simp only [upsertIndex, hok]
    rw [hset, List.set_eq_take_cons_drop b hi, List.pairwise_append, List.pairwise_cons]
    refine ⟨hs.sublist (List.take_sublist i saved),
      ⟨?_, hs.sublist (List.drop_sublist (i + 1) saved)⟩, ?_⟩
    · intro y hy
      have := pairwise_drop_rel hs hi y hy
      rw [hkey] at this
      exact this
    · intro x hx y hy
      have hxle : x.updated ≤ b.updated := by
        have := pairwise_take_rel hs hi x hx
        rw [hkey] at this
        exact this
      rcases List.mem_cons.mp hy with rfl | hy2
      · exact hxle
      · have := pairwise_drop_rel hs hi y hy2
        rw [hkey] at this
        omega
  · have hins : upsertIndex saved b = saved.insertIdx p b := by
      simp only [upsertIndex, herr]
    rcases insert_brackets_of_err hp hlt hgt with ⟨h1, h2⟩
    rw [hins]
    exact pairwise_le_insertIdx saved b p hp hs h1 h2

/-- One `init` step preserves sortedness by `updated`. -/
theorem initStep_pairwise (st : Bundles) (e : Option Bundle)
    (hs : st.saved.Pairwise (fun x y => x.updated ≤ y.updated)) :
    (initStep st e).saved.Pairwise (fun x y => x.updated ≤ y.updated) := by
  cases e with
  | none => exact hs
  | some c =>
    rcases rustBinarySearch_spec (fun x => x.updated) c.updated st.saved hs with
      ⟨i, hok, hi, hkey⟩ | ⟨p, herr, hp, hlt, hgt⟩
    · have hstep : (initStep st (some c)).saved = st.saved.insertIdx i c := by
        simp only [initStep, hok]
      rw [hstep]
      refine pairwise_le_insertIdx st.saved c i (Nat.le_of_lt hi) hs ?_ ?_
      · intro x hx
        have := pairwise_take_rel hs hi x hx
        rw [hkey] at this
        exact this
      · intro y hy
        rw [List.drop_eq_getElem_cons hi] at hy
        rcases List.mem_cons.mp hy with rfl | hy2
        · exact Nat.le_of_eq hkey.symm
        · have := pairwise_drop_rel hs hi y hy2
          rw [hkey] at this
          exact this
    · have hstep : (initStep st (some c)).saved = st.saved.insertIdx p c := by
        simp only [initStep, herr]
      rcases insert_brackets_of_err hp hlt hgt with ⟨h1, h2⟩
      rw [hstep]
      exact pairwise_le_insertIdx st.saved c p hp hs h1 h2

/-- Claim C7 (amended): after `init` and after every upsert, the store's
index is sorted ascending by `updated` — but only by `updated`: the
`Ord for Bundle` used by the searches compares nothing else, so equal
`updated` instants are *not* tie-broken by id (the closed `init`
counterexample above exhibits this); `list()` order among ties depends
on insertion order. -/
theorem store_sorted_by_updated :
    (∀ entries : List (Option Bundle),
      (Bundles.init entries).saved.Pairwise (fun x y => x.updated ≤ y.updated)) ∧
    (∀ (saved : List Bundle) (b : Bundle),
      saved.Pairwise (fun x y => x.updated ≤ y.updated) →
      (upsertIndex saved b).Pairwise (fun x y => x.updated ≤ y.updated)) := by
  constructor
  · have hfold : ∀ (entries : List (Option Bundle)) (st : Bundles),
        st.saved.Pairwise (fun x y => x.updated ≤ y.updated) →
        (entries.foldl initStep st).saved.Pairwise (fun x y => x.updated ≤ y.updated) := by
      intro entries
      induction entries with
      | nil => intro st h; exact h
      | cons e es ih =>
        intro st h
        exact ih _ (initStep_pairwise st e h)
    intro entries
    exact hfold entries ⟨[], 0⟩ List.Pairwise.nil
  · intro saved b h
    exact upsertIndex_pairwise saved b h

/-- Witness for `store_sorted_by_updated`: an `init` over out-of-order
entries and an upsert in front of a sorted index both leave the index
sorted by `updated`. -/
theorem store_sorted_by_updated_witness :
    (Bundles.init [some ⟨1, "", 9, none, []⟩, some ⟨2, "", 4, none, []⟩]).saved.Pairwise
        (fun x y => x.updated ≤ y.updated) ∧
    (upsertIndex [⟨1, "", 10, none, []⟩] ⟨3, "", 7, none, []⟩).Pairwise
        (fun x y => x.updated ≤ y.updated) :=
  ⟨store_sorted_by_updated.1 [some ⟨1, "", 9, none, []⟩, some ⟨2, "", 4, none, []⟩],
   store_sorted_by_updated.2 [⟨1, "", 10, none, []⟩] ⟨3, "", 7, none, []⟩ (by decide)⟩

/-! ## Exact characterization of import failure -/

/-- Whether a token is a `bundle` directive — the token at which the
`captures_iter` loop flips `bundle_start` or, on a second occurrence,
breaks. -/
def Token.isBundleDirective : Token → Bool
  | .directive key _ => decide (key = "bundle".data)
  | .item _ => false

/-- The value an item token contributes: its digit run parsed as `u64`
(`Err(_) => continue` at bundles.rs:111 drops invalid ones); directives
contribute nothing. -/
def Token.itemValue : Token → Option Nat
  | .item d => parseU64 d
  | .directive _ _ => none

/-- The region of the token stream before any second `bundle` directive:
the whole stream when fewer than two occur, otherwise the prefix ending
just before the second one.  `seen` records whether a `bundle` directive
has already been passed. -/
def beforeSecondBundle : Bool → List Token → List Token
  | _, [] => []
  | seen, t :: ts =>
    if t.isBundleDirective then
      if seen then [] else t :: beforeSecondBundle true ts
    else t :: beforeSecondBundle seen ts

/-- The values of the valid item tokens of a token list, in order. -/
def validItemValues (ts : List Token) : List Nat := ts.filterMap Token.itemValue

/-- The `captures_iter` loop collects exactly the valid item values that
occur before any second `bundle` directive, appended to the accumulator
in encounter order. -/
theorem importLoop_items_spec :
    ∀ (ts : List Token) (acc : ParseAcc),
      (importLoop ts acc).items =
        acc.items ++ validItemValues (beforeSecondBundle acc.bundleStart ts) := by
  intro ts
  induction ts with
  | nil => intro acc; simp [importLoop, beforeSecondBundle, validItemValues]
  | cons t ts ih =>
    intro acc
    cases t with
    | item d =>
      have hrhs : beforeSecondBundle acc.bundleStart (Token.item d :: ts)
          = Token.item d :: beforeSecondBundle acc.bundleStart ts := by
        simp [beforeSecondBundle, Token.isBundleDirective]
      rw [hrhs]
      cases hpd : parseU64 d with
      | some n =>
        have hstep : importLoop (Token.item d :: ts) acc = importLoop ts
            ⟨acc.bundleStart, acc.name, acc.collection, acc.updated, acc.items ++ [n]⟩ := by
          simp [importLoop, hpd]
        have hval : validItemValues (Token.item d :: beforeSecondBundle acc.bundleStart ts)
            = n :: validItemValues (beforeSecondBundle acc.bundleStart ts) := by
          simp [validItemValues, List.filterMap_cons, Token.itemValue, hpd]
        rw [hstep, ih, hval]
        simp
      | none =>
        have hstep : importLoop (Token.item d :: ts) acc = importLoop ts acc := by
          simp [importLoop, hpd]
        have hval : validItemValues (Token.item d :: beforeSecondBundle acc.bundleStart ts)
            = validItemValues (beforeSecondBundle acc.bundleStart ts) := by
          simp [validItemValues, List.filterMap_cons, Token.itemValue, hpd]
        rw [hstep, ih, hval]
    | directive key val =>
      by_cases hb : key = "bundle".data
      · subst hb
        by_cases hbs : acc.bundleStart = false
        · have hstep : importLoop (Token.directive "bundle".data val :: ts) acc
              = importLoop ts ⟨true, acc.name, acc.collection, acc.updated, acc.items⟩ := by
            simp [importLoop, hbs]
          have hrhs : beforeSecondBundle acc.bundleStart
                (Token.directive "bundle".data val :: ts)
              = Token.directive "bundle".data val :: beforeSecondBundle true ts := by
            rw [hbs]
            simp [beforeSecondBundle, Token.isBundleDirective]
          rw [hstep, ih, hrhs]
          simp [validItemValues, List.filterMap_cons, Token.itemValue]
        · have hbs2 : acc.bundleStart = true := by
            cases h : acc.bundleStart
            · exact absurd h hbs
            · rfl
          have hstep : importLoop (Token.directive "bundle".data val :: ts) acc = acc := by
            simp [importLoop, hbs2]
          have hrhs : beforeSecondBundle acc.bundleStart
                (Token.directive "bundle".data val :: ts) = [] := by
            rw [hbs2]
            simp [beforeSecondBundle, Token.isBundleDirective]
          rw [hstep, hrhs]
          simp [validItemValues]
      · have hrhs : beforeSecondBundle acc.bundleStart (Token.directive key val :: ts)
            = Token.directive key val :: beforeSecondBundle acc.bundleStart ts := by
          simp [beforeSecondBundle, Token.isBundleDirective, hb]
        have hval : validItemValues
              (Token.directive key val :: beforeSecondBundle acc.bundleStart ts)
            = validItemValues (beforeSecondBundle acc.bundleStart ts) := by
          simp [validItemValues, List.filterMap_cons, Token.itemValue]
        rw [hrhs, hval]
        simp only [importLoop]
        split
        · next h => exact absurd h hb
        · repeat' split
          all_goals rw [ih]

/-- Claim C4 (amended): import fails with `NoItemsFound` exactly when no
valid item token — one whose digit run parses as `u64` — occurs before
any second `bundle` directive, and in every other case import succeeds
with a bundle.  A `bundle` directive is not required for success: item
tokens and directives before the first `bundle` directive are processed
like any others (the closed counterexample above shows an input with an
item token and no `bundle` directive importing successfully), while
tokens after a second `bundle` directive are discarded by the break. -/
theorem import_error_iff_no_valid_item_before_second_bundle
    (src : List Char) (now : Nat) (orc : Nat → Option (List Nat)) (storeId : Nat) :
    (Bundle.importChars src now orc storeId = .error .NoItemsFound ↔
      ∀ t ∈ beforeSecondBundle false (tokensOf src), t.itemValue = none) ∧
    ((¬ ∀ t ∈ beforeSecondBundle false (tokensOf src), t.itemValue = none) →
      ∃ b, Bundle.importChars src now orc storeId = .ok b) := by
  have hitems : (importLoop (tokensOf src) ⟨false, "", none, now, []⟩).items
      = validItemValues (beforeSecondBundle false (tokensOf src)) := by
    simpa using importLoop_items_spec (tokensOf src) ⟨false, "", none, now, []⟩
  have hiff1 : validItemValues (beforeSecondBundle false (tokensOf src)) = [] ↔
      ∀ t ∈ beforeSecondBundle false (tokensOf src), t.itemValue = none :=
    List.filterMap_eq_nil_iff
  have hshape : validItemValues (beforeSecondBundle false (tokensOf src)) ≠ [] →
      ∃ b, Bundle.importChars src now orc storeId = .ok b := by
    intro hne
    show ∃ b, Bundle.importChars src now orc storeId = .ok b
    simp only [Bundle.importChars, hitems]
    rw [if_neg (by simpa [List.isEmpty_iff] using hne)]
    split
    · exact ⟨_, rfl⟩
    · split
      · exact ⟨_, rfl⟩
      · exact ⟨_, rfl⟩
  refine ⟨⟨?_, ?_⟩, ?_⟩
  · intro herr
    by_contra hnot
    have hne : validItemValues (beforeSecondBundle false (tokensOf src)) ≠ [] :=
      fun h => hnot (hiff1.mp h)
    rcases hshape hne with ⟨b, hok⟩
    rw [hok] at herr
    exact Except.noConfusion herr
  · intro hall
    have hnil : validItemValues (beforeSecondBundle false (tokensOf src)) = [] :=
      hiff1.mpr hall
    show Bundle.importChars src now orc storeId = Except.error BundleError.NoItemsFound
    simp only [Bundle.importChars, hitems, hnil]
    rfl
  · intro hnot
    exact hshape (fun h => hnot (hiff1.mp h))

/-- Witness for `import_error_iff_no_valid_item_before_second_bundle` at
three inputs: an item token too large for `u64` fails with
`NoItemsFound`, an item token placed after a second `bundle` directive
fails with `NoItemsFound`, and a valid item token before the second
`bundle` directive makes the same import succeed. -/
theorem import_error_iff_no_valid_item_before_second_bundle_witness :
    Bundle.importChars "--# bundle\n\"99999999999999999999999\"\n".data 0 (fun _ => none) 0 =
      .error .NoItemsFound ∧
    Bundle.importChars "--# bundle\n--# bundle\n\"2\"\n".data 0 (fun _ => none) 0 =
      .error .NoItemsFound ∧
    ∃ b, Bundle.importChars "--# bundle\n\"1\"\n--# bundle\n\"2\"\n".data 0 (fun _ => none) 0 =
      .ok b :=
  ⟨(import_error_iff_no_valid_item_before_second_bundle _ 0 (fun _ => none) 0).1.mpr (by decide),
   (import_error_iff_no_valid_item_before_second_bundle _ 0 (fun _ => none) 0).1.mpr (by decide),
   (import_error_iff_no_valid_item_before_second_bundle _ 0 (fun _ => none) 0).2 (by decide)⟩

/-! ## Decimal rendering round-trips through the token parser -/

/-- `digitChar` of a digit is an ASCII digit. -/
theorem digitChar_isDigit {d : Nat} (h : d < 10) : (digitChar d).isDigit = true := by
  interval_cases d <;> decide

/-- Code point of `digitChar`. -/
theorem digitChar_toNat {d : Nat} (h : d < 10) : (digitChar d).toNat = 48 + d := by
  interval_cases d <;> decide

/-- Appending one digit multiplies the accumulated value by ten. -/
theorem decVal_append_digit (l : List Char) (c : Char) :
    decVal (l ++ [c]) = 10 * decVal l + (c.toNat - 48) := by
  simp [decVal, List.foldl_append]

/-- With fuel above `n`, the rendering of `n` is a nonempty all-digit
string whose decimal value is `n`. -/
theorem natDigitsAux_spec :
    ∀ (fuel n : Nat), n < fuel →
      natDigitsAux fuel n ≠ [] ∧ (∀ c ∈ natDigitsAux fuel n, c.isDigit = true) ∧
        decVal (natDigitsAux fuel n) = n := by
  intro fuel
  induction fuel with
  | zero => intro n h; omega
  | succ fuel ih =>
    intro n h
    by_cases h10 : n < 10
    · have hunf : natDigitsAux (fuel + 1) n = [digitChar n] := by
        simp [natDigitsAux, h10]
      refine ⟨by simp [hunf], ?_, ?_⟩
      · intro c hc
        rw [hunf] at hc
        rcases List.mem_singleton.mp hc with rfl
        exact digitChar_isDigit h10
      · rw [hunf]
        show decVal ([] ++ [digitChar n]) = n
        rw [decVal_append_digit, digitChar_toNat h10]
        simp [decVal]
    · have hrec : n / 10 < fuel := by omega
      have hunf : natDigitsAux (fuel + 1) n =
          natDigitsAux fuel (n / 10) ++ [digitChar (n % 10)] := by
        simp [natDigitsAux, h10]
      obtain ⟨hne, hdig, hval⟩ := ih (n / 10) hrec
      refine ⟨by simp [hunf], ?_, ?_⟩
      · intro c hc
        rw [hunf] at hc
        rcases List.mem_append.mp hc with hc2 | hc2
        · exact hdig c hc2
        · rcases List.mem_singleton.mp hc2 with rfl
          exact digitChar_isDigit (Nat.mod_lt n (by omega))
      · rw [hunf, decVal_append_digit, hval, digitChar_toNat (Nat.mod_lt n (by omega))]
        omega

/-- The rendering of `n` is nonempty. -/
theorem natDigits_ne_nil (n : Nat) : natDigits n ≠ [] :=
  (natDigitsAux_spec (n + 1) n (by omega)).1

/-- Every character of the rendering of `n` is an ASCII digit. -/
theorem natDigits_all_digits (n : Nat) : ∀ c ∈ natDigits n, c.isDigit = true :=
  (natDigitsAux_spec (n + 1) n (by omega)).2.1

/-- The rendering of `n` reads back as `n`. -/
theorem decVal_natDigits (n : Nat) : decVal (natDigits n) = n :=
  (natDigitsAux_spec (n + 1) n (by omega)).2.2

/-- `str::parse::<u64>` inverts `u64::to_string` below `2^64`. -/
theorem parseU64_natDigits {v : Nat} (hv : v < 18446744073709551616) :
    parseU64 (natDigits v) = some v := by
  rcases hd : natDigits v with _ | ⟨c, cs⟩
  · exact absurd hd (natDigits_ne_nil v)
  · have hcd : c.isDigit = true := natDigits_all_digits v c (by rw [hd]; exact List.mem_cons_self _ _)
    have hcp : ¬ (c = '+') := by
      intro h
      rw [h] at hcd
      exact absurd hcd (by decide)
    have hall : (c :: cs).all Char.isDigit = true := by
      rw [List.all_eq_true]
      intro x hx
      exact natDigits_all_digits v x (by rw [hd]; exact hx)
    have hval : decVal (c :: cs) = v := by
      rw [← hd]
      exact decVal_natDigits v
    rw [← hd]
    show parseU64 (natDigits v) = some v
    rw [hd]
    simp only [parseU64, if_neg hcp]
    rw [if_neg (by simp), if_pos hall, hval, if_pos hv]

/-- `takeWhile`/`dropWhile` across an all-satisfying prefix followed by a
failing head. -/
theorem takeWhile_append_cons (p : Char → Bool) (l : List Char) (c : Char) (r : List Char)
    (hl : ∀ x ∈ l, p x = true) (hc : p c = false) :
    (l ++ c :: r).takeWhile p = l ∧ (l ++ c :: r).dropWhile p = c :: r := by
  induction l with
  | nil => simp [List.takeWhile_cons, List.dropWhile_cons, hc]
  | cons a l ih =>
    have ha : p a = true := hl a (List.mem_cons_self _ _)
    have hl2 : ∀ x ∈ l, p x = true := fun x hx => hl x (List.mem_cons_of_mem _ hx)
    rcases ih hl2 with ⟨h1, h2⟩
    constructor
    · simp [List.takeWhile_cons, ha, h1]
    · simp [List.dropWhile_cons, ha, h2]

/-- `splitLines` splits at an explicit newline, provided the preceding
segment contains none. -/
theorem splitLines_append (a b : List Char) (ha : '\n' ∉ a) :
    splitLines (a ++ '\n' :: b) = a :: splitLines b := by
  induction a with
  | nil => simp [splitLines]
  | cons c a ih =>
    have hc : ¬ (c = '\n') := fun h => ha (by rw [h]; exact List.mem_cons_self _ _)
    have ha2 : '\n' ∉ a := fun h => ha (List.mem_cons_of_mem _ h)
    show splitLines (c :: (a ++ '\n' :: b)) = (c :: a) :: splitLines b
    rw [splitLines, ih ha2, if_neg hc]

/-- A long-bracket item line with two `=` and the digits immediately
inside the brackets: `[==[<digits of v>]==]`. -/
def c9line (v : Nat) : List Char :=
  '[' :: '=' :: '=' :: '[' :: (natDigits v ++ (']' :: '=' :: '=' :: ']' :: []))

/-- A minimal script exercising long-bracket quoting: a `bundle`
directive line followed by the `[==[…]==]` item line. -/
def c9input (v : Nat) : List Char :=
  "--# bundle".data ++ '\n' :: (c9line v ++ '\n' :: [])

/-- The long-bracket line parses to an item token carrying the digits. -/
theorem c9line_match (v : Nat) : lineMatch (c9line v) = some (.item (natDigits v)) := by
  obtain ⟨htake, hdrop⟩ := takeWhile_append_cons Char.isDigit (natDigits v) ']'
    ('=' :: '=' :: ']' :: []) (natDigits_all_digits v) (by decide)
  have hqa : quotedAfter ('[' :: (['=', '='] ++ ['['])) (some (']' :: (['=', '='] ++ [']'])))
      (natDigits v ++ (']' :: '=' :: '=' :: ']' :: [])) = some (natDigits v) := by
    simp only [quotedAfter, htake, hdrop]
    rw [if_neg (by simp [natDigits_ne_nil v]), if_neg (by decide), if_pos (by decide)]
  have hq : quotedTok (c9line v) = some (natDigits v) := by
    show quotedTok ('[' :: ('=' :: '=' :: '[' ::
      (natDigits v ++ (']' :: '=' :: '=' :: ']' :: [])))) = some (natDigits v)
    simp only [quotedTok]
    have ht2 : ('=' :: '=' :: '[' :: (natDigits v ++ (']' :: '=' :: '=' :: ']' :: []))).takeWhile
        (fun c => c == '=') = ['=', '='] := by
      simp [List.takeWhile_cons]
    have hd2 : ('=' :: '=' :: '[' :: (natDigits v ++ (']' :: '=' :: '=' :: ']' :: []))).dropWhile
        (fun c => c == '=') = '[' :: (natDigits v ++ (']' :: '=' :: '=' :: ']' :: [])) := by
      simp [List.dropWhile_cons]
    rw [ht2, hd2]
    exact hqa
  show lineMatch (c9line v) = some (.item (natDigits v))
  have hws : (c9line v).dropWhile isWsC = c9line v := by
    show ('[' :: ('=' :: '=' :: '[' ::
      (natDigits v ++ (']' :: '=' :: '=' :: ']' :: [])))).dropWhile isWsC = _
    rw [List.dropWhile_cons, if_neg (by decide)]
    rfl
  simp only [lineMatch, hws, hq]

/-- The token stream of the long-bracket script. -/
theorem c9_tokens (v : Nat) :
    tokensOf (c9input v) = [.directive "bundle".data none, .item (natDigits v)] := by
  have hnd : '\n' ∉ natDigits v := by
    intro h
    have := natDigits_all_digits v '\n' h
    exact absurd this (by decide)
  have hnotA : '\n' ∉ "--# bundle".data := by decide
  have hnotC : '\n' ∉ c9line v := by
    intro h
    simp only [c9line, List.mem_cons, List.mem_append] at h
    rcases h with h | h | h | h | h | h | h | h | h | h <;>
      first
        | exact hnd h
        | exact absurd h (by decide)
  show ((splitLines (c9input v)).filterMap lineMatch) = _
  rw [c9input, splitLines_append _ _ hnotA, splitLines_append _ _ hnotC]
  show (("--# bundle".data :: c9line v :: [[]]).filterMap lineMatch) = _
  rw [List.filterMap_cons, List.filterMap_cons, List.filterMap_cons]
  rw [c9line_match v]
  rfl

/-- Claim C9 (amended): long-bracket quoting is accepted when the digit
run immediately follows the opener and immediately precedes the matching
closer — the regex allows nothing (not even spaces) between them.  For
every `v < 2^64`, an `InBundle` region containing `[==[<v>]==]` yields
the item token `v`.  (With interior spaces the line matches nothing, as
the closed counterexample above shows.) -/
theorem long_bracket_token_captured (v : Nat) (hv : v < 18446744073709551616) :
    Bundle.importChars (c9input v) 0 (fun _ => none) 0 = .ok ⟨1, "", 0, none, [v]⟩ := by
  have htok := c9_tokens v
  have hl1 : importLoop [Token.directive "bundle".data none, Token.item (natDigits v)]
      ⟨false, "", none, 0, []⟩ = importLoop [Token.item (natDigits v)] ⟨true, "", none, 0, []⟩ := rfl
  have hl2 : importLoop [Token.item (natDigits v)] ⟨true, "", none, 0, []⟩ =
      ⟨true, "", none, 0, [v]⟩ := by
    simp only [importLoop, parseU64_natDigits hv]
    rfl
  show Bundle.importChars (c9input v) 0 (fun _ => none) 0 = .ok ⟨1, "", 0, none, [v]⟩
  simp only [Bundle.importChars, htok, hl1, hl2]
  rfl

/-- Witness for `long_bracket_token_captured` at `v = 7`: the input
containing `[==[7]==]` inside the `InBundle` region yields item 7. -/
theorem long_bracket_token_captured_witness :
    7 < 18446744073709551616 ∧
    Bundle.importChars (c9input 7) 0 (fun _ => none) 0 = .ok ⟨1, "", 0, none, [7]⟩ :=
  ⟨by norm_num, long_bracket_token_captured 7 (by norm_num)⟩
